import Mathlib

/-!
Shallow embedding of the detection-deduplication and temporal-stability
tracker of `detect_and_capture.py` (NMS filter, IoU utilities, per-frame
track association, aging and stability query).  Box coordinates are
modelled as rationals: the Python code converts integer pixel boxes to
`float64`, whose arithmetic is exact on the magnitudes that occur here.
The `astype(int)` cast at the NMS boundary is modelled by truncation
toward zero.  `np.argsort(areas)[::-1]` is modelled as a stable ascending
sort followed by reversal, matching the library sort's behaviour on the
small arrays this code produces (its small-array path is an insertion
sort); a rank comparison coming out `nan` (union zero) makes the
`iou <= threshold` test false, which the `nmsKeep` guard reproduces.
-/

namespace FaceTrack

attribute [local semireducible] Rat.mul Rat.add Rat.sub Rat.inv Rat.ofScientific

/-- A bounding box `[x1, y1, x2, y2]`, as handled by the Python lists. -/
structure Box where
  x1 : ℚ
  y1 : ℚ
  x2 : ℚ
  y2 : ℚ
  deriving DecidableEq, Repr, Inhabited

/-- `areas = (x2 - x1 + 1) * (y2 - y1 + 1)` (inclusive pixel convention),
as computed both in `non_max_suppression` and in `iou_xyxy`. -/
def areaB (b : Box) : ℚ := (b.x2 - b.x1 + 1) * (b.y2 - b.y1 + 1)

/-- Intersection area: `w = max(0, xx2 - xx1 + 1)` etc., `inter = w * h`. -/
def interB (a b : Box) : ℚ :=
  max 0 (min a.x2 b.x2 - max a.x1 b.x1 + 1) *
    max 0 (min a.y2 b.y2 - max a.y1 b.y1 + 1)

/-- The union denominator `areas[i] + areas[j] - inter`. -/
def unionB (a b : Box) : ℚ := areaB a + areaB b - interB a b

/-- `iou_xyxy` from the script: returns 0 when the union is 0, otherwise
`inter / union`. -/
def iou_xyxy (a b : Box) : ℚ :=
  if unionB a b = 0 then 0 else interB a b / unionB a b

/-- The survival test of the NMS inner loop: the Python code keeps index
`j` when `iou <= iou_threshold`.  When the union is 0 the float division
yields `nan` and the comparison is false, so `j` is dropped; hence the
guard `unionB a b ≠ 0` below. -/
def nmsKeep (a b : Box) (τ : ℚ) : Bool :=
  decide (unionB a b ≠ 0 ∧ interB a b / unionB a b ≤ τ)

/-- A box whose four coordinates are integers (the normal pipeline case:
detector rectangles have integer coordinates). -/
def IntBox (b : Box) : Prop :=
  b.x1.den = 1 ∧ b.y1.den = 1 ∧ b.x2.den = 1 ∧ b.y2.den = 1

instance (b : Box) : Decidable (IntBox b) := by
  unfold IntBox; infer_instance

/-- Truncation toward zero, the semantics of numpy's `astype(int)` on
floats.  Both branches divide a nonnegative numerator by a positive
denominator, so any integer-division convention agrees. -/
def truncToInt (q : ℚ) : ℤ :=
  if 0 ≤ q then q.num / (q.den : ℤ) else -((-q).num / ((-q).den : ℤ))

/-- `astype(int)` applied to a box. -/
def truncBox (b : Box) : Box :=
  ⟨(truncToInt b.x1 : ℤ), (truncToInt b.y1 : ℤ), (truncToInt b.x2 : ℤ), (truncToInt b.y2 : ℤ)⟩

/-- Stable insertion (ascending by area): an element is inserted before
the first strictly larger area, so equal areas keep their input order. -/
def insertByArea (a : Box) : List Box → List Box
  | [] => [a]
  | b :: l => if areaB b < areaB a then b :: insertByArea a l else a :: b :: l

/-- Stable ascending sort by area, modelling `np.argsort(areas)` on the
values themselves. -/
def sortByArea : List Box → List Box
  | [] => []
  | a :: l => insertByArea a (sortByArea l)

/-- `np.argsort(areas)[::-1]`: processing order of the greedy NMS loop —
descending area, equal areas in reverse input order. -/
def nmsOrder (boxes : List Box) : List Box := (sortByArea boxes).reverse

/-- The greedy suppression loop of `non_max_suppression`, with explicit
fuel so that the definition is structurally recursive (the fuel is always
instantiated with the list length, which suffices because filtering never
lengthens the list). -/
def nmsGreedyF : Nat → ℚ → List Box → List Box
  | 0, _, _ => []
  | _ + 1, _, [] => []
  | fuel + 1, τ, b :: rest => b :: nmsGreedyF fuel τ (rest.filter (fun c => nmsKeep b c τ))

/-- The boxes picked by the greedy loop, in pick order (before the final
`astype(int)` cast). -/
def nmsPicks (boxes : List Box) (τ : ℚ) : List Box :=
  nmsGreedyF (nmsOrder boxes).length τ (nmsOrder boxes)

/-- `non_max_suppression(boxes, scores=None, iou_threshold=τ)`: sort by
area (largest first), greedily pick and suppress, return
`boxes[pick].astype(int)`. -/
def non_max_suppression (boxes : List Box) (τ : ℚ) : List Box :=
  (nmsPicks boxes τ).map truncBox

/-- `NMS_OVERLAP_THRESH = 0.4`. -/
def NMS_OVERLAP_THRESH : ℚ := 2 / 5

/-- `MAX_MISSES = 1`: allowed misses before a track is forgotten. -/
def MAX_MISSES : Nat := 1

/-- `STABLE_FRAMES_REQUIRED = 3`. -/
def STABLE_FRAMES_REQUIRED : Nat := 3

/-- The inline `0.3` IoU match threshold of the association loop. -/
def MATCH_THRESH : ℚ := 3 / 10

/-- One tracked item: `dict(count, last_xyxy, misses)`. -/
structure Track where
  count : Nat
  last_xyxy : Box
  misses : Nat
  deriving DecidableEq, Repr

instance : Inhabited Track := ⟨⟨0, ⟨0, 0, 0, 0⟩, 0⟩⟩

/-- The `tracked` dictionary, as an association list in insertion order
(Python dicts iterate in insertion order, which the matching loop's
tie-break depends on). -/
abbrev TrackTable := List (Nat × Track)

/-- Dictionary key list, in insertion order. -/
def keysOf (l : TrackTable) : List Nat := l.map Prod.fst

/-- Dictionary read `d[k]` (first entry with key `k`). -/
def lookupT (k : Nat) : TrackTable → Option Track
  | [] => none
  | p :: rest => if p.1 = k then some p.2 else lookupT k rest

/-- Dictionary write `d[k] = v`: replaces the entry in place if the key
exists (keeping its position), otherwise appends. -/
def updAssoc (k : Nat) (v : Track) : TrackTable → TrackTable
  | [] => [(k, v)]
  | p :: rest => if p.1 = k then (k, v) :: rest else p :: updAssoc k v rest

/-- The best-match scan of the association loop: iterate over `tracked`
in order, carrying `(best_id, best_iou)`, updating only on a strictly
greater IoU (starting from `(None, 0.0)`). -/
def bestMatch (box : Box) (ts : TrackTable) : Option Nat × ℚ :=
  ts.foldl
    (fun acc p =>
      if acc.2 < iou_xyxy box p.2.last_xyxy then (some p.1, iou_xyxy box p.2.last_xyxy) else acc)
    (none, 0)

/-- The loop state of one frame's association pass: the (mutated)
previous table, the table under construction, `used_track_ids`, and
`next_track_id`. -/
structure AssocState where
  tracked : TrackTable
  new_tracked : TrackTable
  used : List Nat
  next_id : Nat
  deriving DecidableEq, Repr

/-- The no-match branch: `new_tracked[next_track_id] = {count: 1,
last_xyxy: box, misses: 0}; next_track_id += 1`. -/
def newTrackState (s : AssocState) (box : Box) : AssocState :=
  ⟨s.tracked, updAssoc s.next_id ⟨1, box, 0⟩ s.new_tracked, s.used, s.next_id + 1⟩

/-- One iteration of `for box in boxes_xyxy`.  On a match the entry of
`tracked` (shared with `new_tracked`) is updated in place — so later
candidates of the same frame see the updated `last_xyxy` — and the id is
added to `used_track_ids`; `used_track_ids` is not consulted here. -/
def processCandidate (s : AssocState) (box : Box) : AssocState :=
  if MATCH_THRESH < (bestMatch box s.tracked).2 then
    match (bestMatch box s.tracked).1 with
    | some tid =>
        ⟨updAssoc tid ⟨((lookupT tid s.tracked).getD default).count + 1, box, 0⟩ s.tracked,
         updAssoc tid ⟨((lookupT tid s.tracked).getD default).count + 1, box, 0⟩ s.new_tracked,
         tid :: s.used, s.next_id⟩
    | none => newTrackState s box
  else newTrackState s box

/-- The association pass over one frame's candidate boxes. -/
def assocFold (t : TrackTable) (n : Nat) (boxes : List Box) : AssocState :=
  boxes.foldl processCandidate ⟨t, [], [], n⟩

/-- `used_track_ids` after one frame's association pass. -/
def usedOf (t : TrackTable) (n : Nat) (boxes : List Box) : List Nat :=
  (assocFold t n boxes).used

/-- One iteration of the aging loop: a track not in `used_track_ids` gets
`misses += 1` and is carried into `new_tracked` iff `misses <= MAX_MISSES`. -/
def ageStep (used : List Nat) (nt : TrackTable) (p : Nat × Track) : TrackTable :=
  if p.1 ∈ used then nt
  else if p.2.misses + 1 ≤ MAX_MISSES then
    updAssoc p.1 ⟨p.2.count, p.2.last_xyxy, p.2.misses + 1⟩ nt
  else nt

/-- The aging loop over the (post-association) `tracked` dictionary. -/
def ageTracks (tracked : TrackTable) (used : List Nat) (nt : TrackTable) : TrackTable :=
  tracked.foldl (ageStep used) nt

/-- One frame of the main loop after NMS: association then aging,
returning the new `tracked` table and the new `next_track_id`. -/
def updateFrame (t : TrackTable) (n : Nat) (boxes : List Box) : TrackTable × Nat :=
  (ageTracks (assocFold t n boxes).tracked (assocFold t n boxes).used
      (assocFold t n boxes).new_tracked,
   (assocFold t n boxes).next_id)

/-- The per-frame state transition, for iterating over a session. -/
def step (st : TrackTable × Nat) (boxes : List Box) : TrackTable × Nat :=
  updateFrame st.1 st.2 boxes

/-- A whole session: fold the per-frame update over a list of frames'
candidate boxes, starting from the empty table and id counter 0. -/
def sessionRun (frames : List (List Box)) : TrackTable × Nat :=
  frames.foldl step ([], 0)

/-- `info["count"] >= STABLE_FRAMES_REQUIRED`, the stability test used
both for drawing and for the capture filter. -/
def isStable (t : Track) : Bool := STABLE_FRAMES_REQUIRED ≤ t.count

/-- The stable-track query: the entries whose count passes the stability
threshold (the capture filter iterates the table and keeps exactly these). -/
def stableTracks (tbl : TrackTable) : TrackTable := tbl.filter (fun p => isStable p.2)

/-- The invariant of the tracker state maintained across frames: keys
are distinct, below the id counter, and no live track is over the miss
budget. -/
def StateOk (t : TrackTable) (n : Nat) : Prop :=
  (keysOf t).Nodup ∧ (∀ k ∈ keysOf t, k < n) ∧ ∀ p ∈ t, p.2.misses ≤ MAX_MISSES

instance (t : TrackTable) (n : Nat) : Decidable (StateOk t n) := by
  unfold StateOk; infer_instance

/-- What stays true of the loop state through `for box in boxes_xyxy`,
relative to the table `t0` and id counter `n0` the frame started from. -/
structure FoldInv (t0 : TrackTable) (n0 : Nat) (s : AssocState) : Prop where
  tkeys : keysOf s.tracked = keysOf t0
  nle : n0 ≤ s.next_id
  usedMem : ∀ k ∈ s.used, k ∈ keysOf t0
  newKeys : ∀ k ∈ keysOf s.new_tracked, k ∈ s.used ∨ (n0 ≤ k ∧ k < s.next_id)
  newNodup : (keysOf s.new_tracked).Nodup
  newMiss : ∀ p ∈ s.new_tracked, p.2.misses = 0
  unmatched : ∀ k, k ∉ s.used → lookupT k s.tracked = lookupT k t0

/-! ### Geometry and NMS lemmas -/

theorem interB_comm (a b : Box) : interB a b = interB b a := by
  unfold interB
  rw [min_comm a.x2 b.x2, max_comm a.x1 b.x1, min_comm a.y2 b.y2, max_comm a.y1 b.y1]

theorem unionB_comm (a b : Box) : unionB a b = unionB b a := by
  unfold unionB
  rw [interB_comm, add_comm]

theorem iou_comm (a b : Box) : iou_xyxy a b = iou_xyxy b a := by
  unfold iou_xyxy
  rw [interB_comm, unionB_comm]

theorem nmsKeep_comm (a b : Box) (τ : ℚ) : nmsKeep a b τ = nmsKeep b a τ := by
  unfold nmsKeep
  rw [interB_comm, unionB_comm]

theorem iou_le_of_keep {a b : Box} {τ : ℚ} (h : nmsKeep a b τ = true) : iou_xyxy a b ≤ τ := by
  unfold nmsKeep at h
  rw [decide_eq_true_iff] at h
  unfold iou_xyxy
  rw [if_neg h.1]
  exact h.2

theorem ng_sublist (fuel : Nat) (τ : ℚ) (l : List Box) : (nmsGreedyF fuel τ l).Sublist l := by
  induction fuel generalizing l with
  | zero => exact List.nil_sublist l
  | succ fuel ih =>
    cases l with
    | nil => exact List.Sublist.refl []
    | cons b rest =>
      exact (ih _).trans (List.filter_sublist rest) |>.cons₂ b

theorem ng_pairwise (fuel : Nat) (τ : ℚ) (l : List Box) :
    (nmsGreedyF fuel τ l).Pairwise (fun a b => nmsKeep a b τ = true) := by
  induction fuel generalizing l with
  | zero => exact List.Pairwise.nil
  | succ fuel ih =>
    cases l with
    | nil => exact List.Pairwise.nil
    | cons b rest =>
      refine List.Pairwise.cons (fun c hc => ?_) (ih _)
      have hmem : c ∈ rest.filter (fun c => nmsKeep b c τ) :=
        (ng_sublist fuel τ _).subset hc
      exact (List.mem_filter.mp hmem).2

theorem ng_eq_self {τ : ℚ} :
    ∀ {l : List Box} {fuel : Nat}, l.Pairwise (fun a b => nmsKeep a b τ = true) →
      l.length ≤ fuel → nmsGreedyF fuel τ l = l := by
  intro l
  induction l with
  | nil => intro fuel _ hf; cases fuel <;> rfl
  | cons b rest ih =>
    intro fuel hp hf
    cases fuel with
    | zero => exact absurd hf (by simp)
    | succ fuel =>
      have hrest : rest.filter (fun c => nmsKeep b c τ) = rest :=
        List.filter_eq_self.mpr (fun c hc => (List.pairwise_cons.mp hp).1 c hc)
      show b :: nmsGreedyF fuel τ (rest.filter (fun c => nmsKeep b c τ)) = b :: rest
      rw [hrest, ih (List.pairwise_cons.mp hp).2 (Nat.le_of_succ_le_succ hf)]

theorem insertByArea_perm (a : Box) (l : List Box) : (insertByArea a l).Perm (a :: l) := by
  induction l with
  | nil => exact List.Perm.refl _
  | cons b l ih =>
    unfold insertByArea
    split
    · exact (ih.cons b).trans (List.Perm.swap a b l)
    · exact List.Perm.refl _

theorem sortByArea_perm (l : List Box) : (sortByArea l).Perm l := by
  induction l with
  | nil => exact List.Perm.refl _
  | cons a l ih => exact (insertByArea_perm a (sortByArea l)).trans (ih.cons a)

theorem nmsOrder_perm (l : List Box) : (nmsOrder l).Perm l :=
  (List.reverse_perm (sortByArea l)).trans (sortByArea_perm l)

theorem pairwise_insertByArea {a : Box} {l : List Box}
    (h : l.Pairwise (fun x y => areaB x ≤ areaB y)) :
    (insertByArea a l).Pairwise (fun x y => areaB x ≤ areaB y) := by
  induction l with
  | nil => exact List.pairwise_singleton _ a
  | cons b l ih =>
    unfold insertByArea
    split
    · rename_i hba
      refine List.pairwise_cons.mpr ⟨fun c hc => ?_, ih (List.pairwise_cons.mp h).2⟩
      rcases List.mem_cons.mp ((insertByArea_perm a l).mem_iff.mp hc) with hc | hc
      · exact hc ▸ le_of_lt hba
      · exact (List.pairwise_cons.mp h).1 c hc
    · rename_i hba
      refine List.pairwise_cons.mpr ⟨fun c hc => ?_, h⟩
      rcases List.mem_cons.mp hc with hc | hc
      · exact hc ▸ le_of_not_lt hba
      · exact (le_of_not_lt hba).trans ((List.pairwise_cons.mp h).1 c hc)

theorem sortByArea_sorted (l : List Box) :
    (sortByArea l).Pairwise (fun x y => areaB x ≤ areaB y) := by
  induction l with
  | nil => exact List.Pairwise.nil
  | cons a l ih => exact pairwise_insertByArea ih

theorem nmsOrder_sorted (l : List Box) :
    (nmsOrder l).Pairwise (fun x y => areaB y ≤ areaB x) :=
  List.pairwise_reverse.mpr (sortByArea_sorted l)

theorem truncToInt_int {q : ℚ} (h : q.den = 1) : (truncToInt q : ℚ) = q := by
  unfold truncToInt
  have hq : (q.num : ℚ) = q := (Rat.den_eq_one_iff q).mp h
  split
  · rw [h]
    push_cast
    simpa using hq
  · rw [Rat.neg_den, Rat.neg_num, h]
    push_cast
    simpa using hq

theorem truncBox_eq_self {b : Box} (h : IntBox b) : truncBox b = b := by
  obtain ⟨h1, h2, h3, h4⟩ := h
  unfold truncBox
  rw [truncToInt_int h1, truncToInt_int h2, truncToInt_int h3, truncToInt_int h4]

theorem map_truncBox_id {l : List Box} (h : ∀ b ∈ l, IntBox b) : l.map truncBox = l := by
  induction l with
  | nil => rfl
  | cons b l ih =>
    rw [List.map_cons, truncBox_eq_self (h b (List.mem_cons_self b l)),
      ih (fun c hc => h c (List.mem_cons_of_mem b hc))]

theorem nmsPicks_subset {boxes : List Box} {τ : ℚ} {b : Box} (h : b ∈ nmsPicks boxes τ) :
    b ∈ boxes :=
  (nmsOrder_perm boxes).subset ((ng_sublist _ τ _).subset h)

theorem nmsPicks_pairwise_keep (boxes : List Box) (τ : ℚ) :
    (nmsPicks boxes τ).Pairwise (fun a b => nmsKeep a b τ = true) :=
  ng_pairwise _ τ _

theorem nms_eq_picks {boxes : List Box} {τ : ℚ} (h : ∀ b ∈ boxes, IntBox b) :
    non_max_suppression boxes τ = nmsPicks boxes τ :=
  map_truncBox_id (fun b hb => h b (nmsPicks_subset hb))

/-! ### Association-list (dictionary) lemmas -/

theorem lookupT_updAssoc_self (k : Nat) (v : Track) (l : TrackTable) :
    lookupT k (updAssoc k v l) = some v := by
  induction l with
  | nil => simp [updAssoc, lookupT]
  | cons p rest ih =>
    unfold updAssoc
    split
    · simp [lookupT]
    · rename_i hne
      simpa [lookupT, hne] using ih

theorem lookupT_updAssoc_ne {k k' : Nat} (hne : k' ≠ k) (v : Track) (l : TrackTable) :
    lookupT k' (updAssoc k v l) = lookupT k' l := by
  have hk : ¬ k = k' := fun h => hne h.symm
  induction l with
  | nil => simp [updAssoc, lookupT, hk]
  | cons p rest ih =>
    unfold updAssoc
    split
    · rename_i hp
      simp [lookupT, hp, hk]
    · simp [lookupT, ih]

theorem mem_updAssoc {p : Nat × Track} {k : Nat} {v : Track} {l : TrackTable}
    (h : p ∈ updAssoc k v l) : p = (k, v) ∨ p ∈ l := by
  induction l with
  | nil => simpa [updAssoc] using h
  | cons q rest ih =>
    unfold updAssoc at h
    split at h
    · rcases List.mem_cons.mp h with h | h
      · exact Or.inl h
      · exact Or.inr (List.mem_cons_of_mem q h)
    · rcases List.mem_cons.mp h with h | h
      · exact Or.inr (h ▸ List.mem_cons_self q rest)
      · rcases ih h with h | h
        · exact Or.inl h
        · exact Or.inr (List.mem_cons_of_mem q h)

theorem mem_keysOf_updAssoc {x k : Nat} {v : Track} {l : TrackTable}
    (h : x ∈ keysOf (updAssoc k v l)) : x = k ∨ x ∈ keysOf l := by
  rcases List.mem_map.mp h with ⟨p, hp, hx⟩
  rcases mem_updAssoc hp with hp | hp
  · exact Or.inl (hx ▸ hp ▸ rfl)
  · exact Or.inr (hx ▸ List.mem_map_of_mem Prod.fst hp)

theorem keysOf_updAssoc_of_mem {k : Nat} {l : TrackTable} (h : k ∈ keysOf l) (v : Track) :
    keysOf (updAssoc k v l) = keysOf l := by
  induction l with
  | nil => simp [keysOf] at h
  | cons p rest ih =>
    unfold updAssoc
    split
    · rename_i hp
      simp [keysOf, hp]
    · rename_i hp
      have hk : k ∈ keysOf rest := by
        rcases List.mem_cons.mp h with h | h
        · exact absurd h.symm hp
        · exact h
      simpa [keysOf] using congrArg (p.1 :: ·) (ih hk)

theorem nodup_keysOf_updAssoc {k : Nat} {v : Track} {l : TrackTable}
    (h : (keysOf l).Nodup) : (keysOf (updAssoc k v l)).Nodup := by
  induction l with
  | nil => simp [updAssoc, keysOf]
  | cons p rest ih =>
    unfold updAssoc
    split
    · rename_i hp
      simpa [keysOf, hp] using h
    · rename_i hp
      rw [keysOf, List.map_cons, List.nodup_cons] at h ⊢
      refine ⟨fun hmem => ?_, ih h.2⟩
      rcases mem_keysOf_updAssoc hmem with hx | hx
      · exact hp hx
      · exact h.1 hx

theorem updAssoc_ne_nil (k : Nat) (v : Track) (l : TrackTable) : updAssoc k v l ≠ [] := by
  cases l with
  | nil => simp [updAssoc]
  | cons p rest =>
    unfold updAssoc
    split <;> simp

theorem length_le_updAssoc (k : Nat) (v : Track) (l : TrackTable) :
    l.length ≤ (updAssoc k v l).length := by
  induction l with
  | nil => simp [updAssoc]
  | cons p rest ih =>
    unfold updAssoc
    split
    · simp
    · simpa using ih

theorem lookupT_eq_none {k : Nat} {l : TrackTable} (h : k ∉ keysOf l) : lookupT k l = none := by
  induction l with
  | nil => rfl
  | cons p rest ih =>
    rw [keysOf, List.map_cons, List.mem_cons, not_or] at h
    have hp : ¬ p.1 = k := fun he => h.1 he.symm
    simpa [lookupT, hp] using ih (by simpa [keysOf] using h.2)

theorem lookupT_some_mem {k : Nat} {v : Track} {l : TrackTable} (h : lookupT k l = some v) :
    (k, v) ∈ l := by
  induction l with
  | nil => simp [lookupT] at h
  | cons p rest ih =>
    unfold lookupT at h
    split at h
    · rename_i hp
      have : p = (k, v) := by
        cases p
        simp_all
      exact this ▸ List.mem_cons_self p rest
    · exact List.mem_cons_of_mem p (ih h)

theorem mem_keysOf_of_mem {p : Nat × Track} {l : TrackTable} (h : p ∈ l) : p.1 ∈ keysOf l :=
  List.mem_map_of_mem Prod.fst h

/-! ### Best-match lemmas -/

theorem bestMatch_fst_mem {box : Box} {ts : TrackTable} {tid : Nat}
    (h : (bestMatch box ts).1 = some tid) : tid ∈ keysOf ts := by
  suffices haux : ∀ (l : TrackTable) (acc : Option Nat × ℚ),
      (l.foldl
          (fun acc p =>
            if acc.2 < iou_xyxy box p.2.last_xyxy then (some p.1, iou_xyxy box p.2.last_xyxy)
            else acc)
          acc).1 = some tid →
        acc.1 = some tid ∨ tid ∈ keysOf l by
    rcases haux ts (none, 0) h with hc | hc
    · simp at hc
    · exact hc
  intro l
  induction l with
  | nil => exact fun acc h => Or.inl h
  | cons p rest ih =>
    intro acc h
    rcases ih _ h with hc | hc
    · dsimp only at hc
      by_cases hlt : acc.2 < iou_xyxy box p.2.last_xyxy
      · rw [if_pos hlt] at hc
        simp only [keysOf, List.map_cons, List.mem_cons]
        exact Or.inr (Or.inl (by simpa using hc.symm))
      · rw [if_neg hlt] at hc
        exact Or.inl hc
    · exact Or.inr (by simpa [keysOf] using Or.inr hc)

theorem bestMatch_all_zero {box : Box} {ts : TrackTable}
    (h : ∀ p ∈ ts, iou_xyxy box p.2.last_xyxy = 0) : bestMatch box ts = (none, 0) := by
  unfold bestMatch
  induction ts with
  | nil => rfl
  | cons p rest ih =>
    rw [List.foldl_cons, h p (List.mem_cons_self p rest)]
    rw [if_neg (lt_irrefl (0 : ℚ))]
    exact ih (fun q hq => h q (List.mem_cons_of_mem p hq))

/-! ### Invariant of the association pass -/

theorem foldInv_init (t0 : TrackTable) (n0 : Nat) : FoldInv t0 n0 ⟨t0, [], [], n0⟩ where
  tkeys := rfl
  nle := le_refl n0
  usedMem := by simp
  newKeys := by simp [keysOf]
  newNodup := List.Pairwise.nil
  newMiss := by simp
  unmatched := fun _ _ => rfl

theorem foldInv_processCandidate {t0 : TrackTable} {n0 : Nat} {s : AssocState} (box : Box)
    (h : FoldInv t0 n0 s) : FoldInv t0 n0 (processCandidate s box) := by
  unfold processCandidate
  split
  · cases hbm : (bestMatch box s.tracked).1 with
    | none =>
      show FoldInv t0 n0 (newTrackState s box)
      unfold newTrackState
      exact
        { tkeys := h.tkeys
          nle := h.nle.trans (Nat.le_succ _)
          usedMem := h.usedMem
          newKeys := by
            intro k hk
            rcases mem_keysOf_updAssoc hk with hk | hk
            · exact Or.inr ⟨hk ▸ h.nle, hk ▸ Nat.lt_succ_self _⟩
            · rcases h.newKeys k hk with hk | hk
              · exact Or.inl hk
              · exact Or.inr ⟨hk.1, hk.2.trans (Nat.lt_succ_self _)⟩
          newNodup := nodup_keysOf_updAssoc h.newNodup
          newMiss := by
            intro p hp
            rcases mem_updAssoc hp with hp | hp
            · rw [hp]
            · exact h.newMiss p hp
          unmatched := h.unmatched }
    | some tid =>
      have htid : tid ∈ keysOf t0 := h.tkeys ▸ bestMatch_fst_mem hbm
      have htid' : tid ∈ keysOf s.tracked := h.tkeys ▸ htid
      exact
        { tkeys := (keysOf_updAssoc_of_mem htid' _).trans h.tkeys
          nle := h.nle
          usedMem := by
            intro k hk
            rcases List.mem_cons.mp hk with hk | hk
            · exact hk ▸ htid
            · exact h.usedMem k hk
          newKeys := by
            intro k hk
            rcases mem_keysOf_updAssoc hk with hk | hk
            · exact Or.inl (hk ▸ List.mem_cons_self tid s.used)
            · rcases h.newKeys k hk with hk | hk
              · exact Or.inl (List.mem_cons_of_mem tid hk)
              · exact Or.inr hk
          newNodup := nodup_keysOf_updAssoc h.newNodup
          newMiss := by
            intro p hp
            rcases mem_updAssoc hp with hp | hp
            · rw [hp]
            · exact h.newMiss p hp
          unmatched := by
            intro k hk
            rw [List.mem_cons, not_or] at hk
            rw [lookupT_updAssoc_ne hk.1 _ _]
            exact h.unmatched k hk.2 }
  · show FoldInv t0 n0 (newTrackState s box)
    unfold newTrackState
    exact
      { tkeys := h.tkeys
        nle := h.nle.trans (Nat.le_succ _)
        usedMem := h.usedMem
        newKeys := by
          intro k hk
          rcases mem_keysOf_updAssoc hk with hk | hk
          · exact Or.inr ⟨hk ▸ h.nle, hk ▸ Nat.lt_succ_self _⟩
          · rcases h.newKeys k hk with hk | hk
            · exact Or.inl hk
            · exact Or.inr ⟨hk.1, hk.2.trans (Nat.lt_succ_self _)⟩
        newNodup := nodup_keysOf_updAssoc h.newNodup
        newMiss := by
          intro p hp
          rcases mem_updAssoc hp with hp | hp
          · rw [hp]
          · exact h.newMiss p hp
        unmatched := h.unmatched }

theorem foldInv_assocFold (t0 : TrackTable) (n0 : Nat) (boxes : List Box) :
    FoldInv t0 n0 (assocFold t0 n0 boxes) := by
  unfold assocFold
  suffices haux : ∀ (bs : List Box) (s : AssocState), FoldInv t0 n0 s →
      FoldInv t0 n0 (bs.foldl processCandidate s) by
    exact haux boxes _ (foldInv_init t0 n0)
  intro bs
  induction bs with
  | nil => exact fun s h => h
  | cons b bs ih => exact fun s h => ih _ (foldInv_processCandidate b h)

/-! ### Aging-loop lemmas -/

theorem mem_keysOf_age {used : List Nat} {x : Nat} :
    ∀ {tr nt : TrackTable}, x ∈ keysOf (tr.foldl (ageStep used) nt) →
      x ∈ keysOf nt ∨ x ∈ keysOf tr := by
  intro tr
  induction tr with
  | nil => exact fun h => Or.inl h
  | cons p tr ih =>
    intro nt h
    rcases ih h with h | h
    · unfold ageStep at h
      split at h
      · exact Or.inl h
      · split at h
        · rcases mem_keysOf_updAssoc h with h | h
          · exact Or.inr (by simpa [keysOf] using Or.inl h)
          · exact Or.inl h
        · exact Or.inl h
    · exact Or.inr (by simpa [keysOf] using Or.inr h)

theorem nodup_keysOf_age {used : List Nat} :
    ∀ {tr nt : TrackTable}, (keysOf nt).Nodup → (keysOf (tr.foldl (ageStep used) nt)).Nodup := by
  intro tr
  induction tr with
  | nil => exact fun h => h
  | cons p tr ih =>
    intro nt h
    refine ih ?_
    unfold ageStep
    split
    · exact h
    · split
      · exact nodup_keysOf_updAssoc h
      · exact h

theorem mem_age {used : List Nat} {q : Nat × Track} :
    ∀ {tr nt : TrackTable}, q ∈ tr.foldl (ageStep used) nt →
      q ∈ nt ∨ ∃ p ∈ tr, q = (p.1, ⟨p.2.count, p.2.last_xyxy, p.2.misses + 1⟩) ∧
        p.2.misses + 1 ≤ MAX_MISSES := by
  intro tr
  induction tr with
  | nil => exact fun h => Or.inl h
  | cons p tr ih =>
    intro nt h
    rcases ih h with h | h
    · unfold ageStep at h
      split at h
      · exact Or.inl h
      · split at h
        · rename_i hmiss
          rcases mem_updAssoc h with h | h
          · exact Or.inr ⟨p, List.mem_cons_self p tr, h, hmiss⟩
          · exact Or.inl h
        · exact Or.inl h
    · rcases h with ⟨p', hp', hq⟩
      exact Or.inr ⟨p', List.mem_cons_of_mem p hp', hq⟩

theorem lookupT_ageStep_ne {used : List Nat} {k : Nat} {nt : TrackTable} {p : Nat × Track}
    (h : ¬ p.1 = k) : lookupT k (ageStep used nt p) = lookupT k nt := by
  unfold ageStep
  split
  · rfl
  · split
    · exact lookupT_updAssoc_ne (Ne.symm h) _ _
    · rfl

theorem age_lookup_notin {used : List Nat} {k : Nat} :
    ∀ {tr nt : TrackTable}, k ∉ keysOf tr →
      lookupT k (tr.foldl (ageStep used) nt) = lookupT k nt := by
  intro tr
  induction tr with
  | nil => exact fun _ => rfl
  | cons p tr ih =>
    intro nt hk
    rw [keysOf, List.map_cons, List.mem_cons, not_or] at hk
    rw [List.foldl_cons, ih (by simpa [keysOf] using hk.2)]
    exact lookupT_ageStep_ne (fun h => hk.1 h.symm)

theorem age_lookup_mem {used : List Nat} {k : Nat} {v : Track} :
    ∀ {tr nt : TrackTable}, (keysOf tr).Nodup → (k, v) ∈ tr → k ∉ used →
      lookupT k (tr.foldl (ageStep used) nt) =
        (if v.misses + 1 ≤ MAX_MISSES then
          some ⟨v.count, v.last_xyxy, v.misses + 1⟩ else lookupT k nt) := by
  intro tr
  induction tr with
  | nil => intro nt _ hmem; simp at hmem
  | cons p tr ih =>
    intro nt hnd hmem hused
    rw [keysOf, List.map_cons, List.nodup_cons] at hnd
    by_cases hpk : p.1 = k
    · have hp : p = (k, v) := by
        rcases List.mem_cons.mp hmem with h | h
        · exact h.symm
        · exact absurd (hpk ▸ mem_keysOf_of_mem h) hnd.1
      have hknotin : k ∉ keysOf tr := hpk ▸ hnd.1
      rw [List.foldl_cons, age_lookup_notin hknotin]
      unfold ageStep
      rw [hp]
      rw [if_neg hused]
      split
      · exact lookupT_updAssoc_self k _ nt
      · rfl
    · have hmem' : (k, v) ∈ tr := by
        rcases List.mem_cons.mp hmem with h | h
        · exact absurd (congrArg Prod.fst h).symm hpk
        · exact h
      rw [List.foldl_cons, ih hnd.2 hmem' hused, lookupT_ageStep_ne hpk]

theorem length_le_age {used : List Nat} :
    ∀ {tr nt : TrackTable}, nt.length ≤ (tr.foldl (ageStep used) nt).length := by
  intro tr
  induction tr with
  | nil => exact le_refl _
  | cons p tr ih =>
    intro nt
    refine le_trans ?_ ih
    unfold ageStep
    split
    · exact le_refl _
    · split
      · exact length_le_updAssoc _ _ _
      · exact le_refl _

/-! ### Frame-level and session-level lemmas -/

theorem updateFrame_stateOk {t : TrackTable} {n : Nat} (h : StateOk t n) (boxes : List Box) :
    StateOk (updateFrame t n boxes).1 (updateFrame t n boxes).2 := by
  obtain ⟨hnd, hlt, _⟩ := h
  have hinv := foldInv_assocFold t n boxes
  refine ⟨nodup_keysOf_age hinv.newNodup, ?_, ?_⟩
  · intro k hk
    rcases mem_keysOf_age hk with hk | hk
    · rcases hinv.newKeys k hk with hk | hk
      · exact (hlt k (hinv.usedMem k hk)).trans_le hinv.nle
      · exact hk.2
    · exact (hlt k (hinv.tkeys ▸ hk)).trans_le hinv.nle
  · intro p hp
    rcases mem_age hp with hp | hp
    · rw [hinv.newMiss p hp]
      exact Nat.zero_le _
    · rcases hp with ⟨q, _, hq, hb⟩
      rw [hq]
      exact hb

theorem updateFrame_next_mono (t : TrackTable) (n : Nat) (boxes : List Box) :
    n ≤ (updateFrame t n boxes).2 :=
  (foldInv_assocFold t n boxes).nle

theorem updateFrame_absent {t : TrackTable} {n : Nat} {k : Nat} (hk : k < n)
    (habs : k ∉ keysOf t) (boxes : List Box) : k ∉ keysOf (updateFrame t n boxes).1 := by
  intro hmem
  have hinv := foldInv_assocFold t n boxes
  rcases mem_keysOf_age hmem with hm | hm
  · rcases hinv.newKeys k hm with hm | hm
    · exact habs (hinv.usedMem k hm)
    · exact absurd hk (not_lt.mpr hm.1)
  · exact habs (hinv.tkeys ▸ hm)

theorem processCandidate_new_ne_nil (s : AssocState) (b : Box) :
    (processCandidate s b).new_tracked ≠ [] := by
  unfold processCandidate
  split
  · cases (bestMatch b s.tracked).1 with
    | none => exact updAssoc_ne_nil _ _ _
    | some tid => exact updAssoc_ne_nil _ _ _
  · exact updAssoc_ne_nil _ _ _

theorem foldl_new_mono :
    ∀ (bs : List Box) (s : AssocState), s.new_tracked ≠ [] →
      (bs.foldl processCandidate s).new_tracked ≠ [] := by
  intro bs
  induction bs with
  | nil => exact fun s h => h
  | cons b bs ih =>
    intro s _
    rw [List.foldl_cons]
    exact ih (processCandidate s b) (processCandidate_new_ne_nil s b)

theorem updateFrame_empty_next {t : TrackTable} {n : Nat} {boxes : List Box}
    (h : (updateFrame t n boxes).1 = []) : (updateFrame t n boxes).2 = n := by
  cases hb : boxes with
  | nil => rfl
  | cons b bs =>
    exfalso
    have hlen : ((assocFold t n boxes).new_tracked).length ≤ (updateFrame t n boxes).1.length :=
      length_le_age
    rw [h, List.length_nil, Nat.le_zero, List.length_eq_zero] at hlen
    refine foldl_new_mono bs (processCandidate ⟨t, [], [], n⟩ b)
        (processCandidate_new_ne_nil _ b) ?_
    have : assocFold t n boxes = bs.foldl processCandidate (processCandidate ⟨t, [], [], n⟩ b) := by
      rw [hb]; rfl
    exact this ▸ hlen

theorem sessionRun_stateOk (frames : List (List Box)) :
    StateOk (sessionRun frames).1 (sessionRun frames).2 := by
  unfold sessionRun
  suffices haux : ∀ (fs : List (List Box)) (st : TrackTable × Nat), StateOk st.1 st.2 →
      StateOk (fs.foldl step st).1 (fs.foldl step st).2 by
    refine haux frames ([], 0) ?_
    exact ⟨List.Pairwise.nil, by simp [keysOf], by simp⟩
  intro fs
  induction fs with
  | nil => exact fun st h => h
  | cons f fs ih => exact fun st h => ih _ (updateFrame_stateOk h f)

theorem foldl_step_absent {k : Nat} :
    ∀ (more : List (List Box)) (st : TrackTable × Nat), StateOk st.1 st.2 → k < st.2 →
      k ∉ keysOf st.1 → k ∉ keysOf (more.foldl step st).1 := by
  intro more
  induction more with
  | nil => exact fun st _ _ h => h
  | cons f more ih =>
    intro st hok hk habs
    exact ih (step st f) (updateFrame_stateOk hok f)
      (hk.trans_le (updateFrame_next_mono st.1 st.2 f)) (updateFrame_absent hk habs f)

/-! ### Claim C1 -/

/-- C1 counterexample: the association loop never consults
`used_track_ids` when matching, so one previous track can be claimed by
two candidates of the same frame.  Starting from a single track with box
`(0,0,9,9)` and `next_track_id = 1`, the NMS-compatible candidates
`(0,0,9,9)` and `(0,5,9,14)` (pairwise IoU 1/3 ≤ 0.4) both match track 0
(the second against the refreshed `last_xyxy`, with IoU 1/3 > 0.3): the
track's count jumps from 1 to 3 in one frame and no new track is created,
contradicting the claimed outcome of a carried match plus a fresh track
with id 1. -/
theorem c1_single_claim_counterexample :
    updateFrame [(0, ⟨1, ⟨0, 0, 9, 9⟩, 0⟩)] 1 [⟨0, 0, 9, 9⟩, ⟨0, 5, 9, 14⟩]
        = ([(0, ⟨3, ⟨0, 5, 9, 14⟩, 0⟩)], 1) ∧
    non_max_suppression [⟨0, 0, 9, 9⟩, ⟨0, 5, 9, 14⟩] NMS_OVERLAP_THRESH
        = [⟨0, 5, 9, 14⟩, ⟨0, 0, 9, 9⟩] ∧
    iou_xyxy ⟨0, 5, 9, 14⟩ ⟨0, 0, 9, 9⟩ = 1 / 3 ∧
    updateFrame [(0, ⟨1, ⟨0, 0, 9, 9⟩, 0⟩)] 1 [⟨0, 0, 9, 9⟩, ⟨0, 5, 9, 14⟩]
        ≠ ([(0, ⟨2, ⟨0, 0, 9, 9⟩, 0⟩), (1, ⟨1, ⟨0, 5, 9, 14⟩, 0⟩)], 2) := by
  refine ⟨by decide, by decide, by decide, by decide⟩

/-- C1 (amended): per-candidate matching ignores the `used_track_ids`
set entirely — the table, the new table and the id counter produced by
processing one candidate do not depend on it (the set only shields
matched tracks from miss-aging later).  Hence a track already claimed by
an earlier candidate in the same frame can be matched again by a later
candidate, which re-updates that track instead of starting a new one. -/
theorem c1_matching_ignores_used (t nt : TrackTable) (u u' : List Nat) (n : Nat) (box : Box) :
    (processCandidate ⟨t, nt, u, n⟩ box).tracked
        = (processCandidate ⟨t, nt, u', n⟩ box).tracked ∧
    (processCandidate ⟨t, nt, u, n⟩ box).new_tracked
        = (processCandidate ⟨t, nt, u', n⟩ box).new_tracked ∧
    (processCandidate ⟨t, nt, u, n⟩ box).next_id
        = (processCandidate ⟨t, nt, u', n⟩ box).next_id := by
  unfold processCandidate newTrackState
  by_cases h : MATCH_THRESH < (bestMatch box t).2
  · cases hb : (bestMatch box t).1 with
    | none => simp [h, hb]
    | some tid => simp [h, hb]
  · simp [h]

/-! ### Claim C2 -/

/-- C2 counterexample: on Scenario B's input the two boxes have equal
area, and `np.argsort(areas)[::-1]` puts equal areas in reverse input
order, so the box kept is the second one, `(12,12,52,52)` — not the
first as claimed. -/
theorem c2_tiebreak_counterexample :
    areaB ⟨10, 10, 50, 50⟩ = areaB ⟨12, 12, 52, 52⟩ ∧
    non_max_suppression [⟨10, 10, 50, 50⟩, ⟨12, 12, 52, 52⟩] NMS_OVERLAP_THRESH
        = [⟨12, 12, 52, 52⟩] ∧
    non_max_suppression [⟨10, 10, 50, 50⟩, ⟨12, 12, 52, 52⟩] NMS_OVERLAP_THRESH
        ≠ [⟨10, 10, 50, 50⟩] := by
  refine ⟨by decide, by decide, by decide⟩

/-- C2 (amended): with no scores, NMS processes and returns boxes by
area, largest first (the picked sequence is non-increasing in area), but
boxes of equal area are processed in reverse input order; on the two
equal-area overlapping inputs of Scenario B exactly one box is kept,
namely the second, `(12,12,52,52)`. -/
theorem c2_nms_area_ranking (boxes : List Box) (τ : ℚ) :
    (nmsPicks boxes τ).Pairwise (fun a b => areaB b ≤ areaB a) ∧
    non_max_suppression [⟨10, 10, 50, 50⟩, ⟨12, 12, 52, 52⟩] NMS_OVERLAP_THRESH
        = [⟨12, 12, 52, 52⟩] := by
  constructor
  · exact List.Pairwise.sublist (ng_sublist _ τ _) (nmsOrder_sorted boxes)
  · decide

/-! ### Claim C3 -/

/-- C3 counterexample: a degenerate box is not always ranked lowest by
NMS, and the NMS-side IoU has no union-is-zero guard.  The degenerate
box `(0,0,-3,-3)` has area `(-2)·(-2) = 4 > 1 =` area of the real box
`(0,0,0,0)`, so it is processed (and returned) first, not last; and for
the degenerate `(0,0,-2,0)` (area −1) against `(0,0,0,0)` the union is
0, the float IoU is `nan`, the `iou <= threshold` test is false and the
degenerate box is suppressed — instead of being kept with IoU 0 as the
claim would have it. -/
theorem c3_degenerate_counterexample :
    non_max_suppression [⟨0, 0, -3, -3⟩, ⟨0, 0, 0, 0⟩] NMS_OVERLAP_THRESH
        = [⟨0, 0, -3, -3⟩, ⟨0, 0, 0, 0⟩] ∧
    areaB ⟨0, 0, -3, -3⟩ = 4 ∧ areaB ⟨0, 0, 0, 0⟩ = 1 ∧
    non_max_suppression [⟨0, 0, -2, 0⟩, ⟨0, 0, 0, 0⟩] NMS_OVERLAP_THRESH = [⟨0, 0, 0, 0⟩] ∧
    unionB ⟨0, 0, 0, 0⟩ ⟨0, 0, -2, 0⟩ = 0 := by
  refine ⟨by decide, by decide, by decide, by decide, by decide⟩

/-- C3 (amended): a box with zero-or-negative width or height in the
inclusive convention (`x2 - x1 + 1 ≤ 0` or `y2 - y1 + 1 ≤ 0`; for
integer boxes, `x2 < x1` or `y2 < y1`) has `iou_xyxy` 0 against every
box in both argument orders — the union-is-zero branch of `iou_xyxy`
protects the division — and such a candidate is never matched to any
track (the best-match scan returns `(None, 0)` over every table).  The
NMS-side ranking and division claims do not hold (see the
counterexample). -/
theorem c3_degenerate_safety (a : Box) (ts : TrackTable)
    (h : a.x2 - a.x1 + 1 ≤ 0 ∨ a.y2 - a.y1 + 1 ≤ 0) :
    (∀ b : Box, iou_xyxy a b = 0 ∧ iou_xyxy b a = 0) ∧ bestMatch a ts = (none, 0) := by
  have hinter : ∀ b : Box, interB a b = 0 := by
    intro b
    unfold interB
    rcases h with h | h
    · have hx : min a.x2 b.x2 - max a.x1 b.x1 + 1 ≤ 0 := by
        have h1 : min a.x2 b.x2 ≤ a.x2 := min_le_left _ _
        have h2 : a.x1 ≤ max a.x1 b.x1 := le_max_left _ _
        linarith
      rw [max_eq_left hx, zero_mul]
    · have hy : min a.y2 b.y2 - max a.y1 b.y1 + 1 ≤ 0 := by
        have h1 : min a.y2 b.y2 ≤ a.y2 := min_le_left _ _
        have h2 : a.y1 ≤ max a.y1 b.y1 := le_max_left _ _
        linarith
      rw [max_eq_left hy, mul_zero]
  have hiou : ∀ b : Box, iou_xyxy a b = 0 := by
    intro b
    unfold iou_xyxy
    split
    · rfl
    · rw [hinter b, zero_div]
  refine ⟨fun b => ⟨hiou b, by rw [iou_comm]; exact hiou b⟩, ?_⟩
  exact bestMatch_all_zero (fun p _ => hiou p.2.last_xyxy)

/-- C3 witness: the degenerate box `(5,5,3,3)` has IoU 0 against
`(0,0,9,9)` and is not matched against a table holding that box. -/
theorem c3_degenerate_safety_witness :
    iou_xyxy ⟨5, 5, 3, 3⟩ ⟨0, 0, 9, 9⟩ = 0 ∧
    bestMatch ⟨5, 5, 3, 3⟩ [(0, ⟨1, ⟨0, 0, 9, 9⟩, 0⟩)] = (none, 0) :=
  ⟨((c3_degenerate_safety ⟨5, 5, 3, 3⟩ [(0, ⟨1, ⟨0, 0, 9, 9⟩, 0⟩)] (by decide)).1 ⟨0, 0, 9, 9⟩).1,
   (c3_degenerate_safety ⟨5, 5, 3, 3⟩ [(0, ⟨1, ⟨0, 0, 9, 9⟩, 0⟩)] (by decide)).2⟩

/-! ### Claim C4 -/

/-- C4 counterexample: the subset guarantee does not hold for every
input — `astype(int)` truncates, so the fractional single box
`(0,0,1.5,1.5)` is returned as `(0,0,1,1)`, which is not an element of
the input (and the single-box input is not kept as-is). -/
theorem c4_subset_counterexample :
    non_max_suppression [⟨0, 0, 3 / 2, 3 / 2⟩] NMS_OVERLAP_THRESH = [⟨0, 0, 1, 1⟩] ∧
    (⟨0, 0, 1, 1⟩ : Box) ∉ [(⟨0, 0, 3 / 2, 3 / 2⟩ : Box)] := by
  refine ⟨by decide, by decide⟩

/-- C4 (amended): for every input sequence of integer-coordinate boxes
and every threshold, `non_max_suppression` returns a subset of the input
in which every pair of surviving boxes has `iou_xyxy` at most the
threshold; the empty input yields the empty output, and a single-box
input keeps that box. -/
theorem c4_nms_contract (boxes : List Box) (τ : ℚ) (hint : ∀ b ∈ boxes, IntBox b) :
    (∀ b ∈ non_max_suppression boxes τ, b ∈ boxes) ∧
    (non_max_suppression boxes τ).Pairwise (fun a b => iou_xyxy a b ≤ τ) ∧
    non_max_suppression ([] : List Box) τ = [] ∧
    (∀ b : Box, boxes = [b] → non_max_suppression boxes τ = [b]) := by
  have hpk : non_max_suppression boxes τ = nmsPicks boxes τ := nms_eq_picks hint
  refine ⟨?_, ?_, rfl, ?_⟩
  · intro b hb
    exact nmsPicks_subset (hpk ▸ hb)
  · rw [hpk]
    exact (nmsPicks_pairwise_keep boxes τ).imp (fun h => iou_le_of_keep h)
  · intro b hbox
    subst hbox
    exact hpk

/-- C4 witness: instantiating the contract on a two-box and a one-box
integer input. -/
theorem c4_nms_contract_witness :
    (⟨20, 20, 29, 29⟩ : Box) ∈ [(⟨0, 0, 9, 9⟩ : Box), ⟨20, 20, 29, 29⟩] ∧
    non_max_suppression [(⟨0, 0, 9, 9⟩ : Box)] NMS_OVERLAP_THRESH = [⟨0, 0, 9, 9⟩] :=
  ⟨(c4_nms_contract [⟨0, 0, 9, 9⟩, ⟨20, 20, 29, 29⟩] NMS_OVERLAP_THRESH (by decide)).1
      ⟨20, 20, 29, 29⟩ (by decide),
   (c4_nms_contract [⟨0, 0, 9, 9⟩] NMS_OVERLAP_THRESH (by decide)).2.2.2 ⟨0, 0, 9, 9⟩ rfl⟩

/-! ### Claim C9 -/

/-- C9 counterexample: NMS is not idempotent as a function on lists —
on two equal-area disjoint boxes the tie-break (reverse input order)
flips the output order on each pass, so applying NMS to its own output
does not return that output unchanged. -/
theorem c9_idempotence_counterexample :
    non_max_suppression [⟨0, 0, 9, 9⟩, ⟨100, 100, 109, 109⟩] NMS_OVERLAP_THRESH
        = [⟨100, 100, 109, 109⟩, ⟨0, 0, 9, 9⟩] ∧
    non_max_suppression
        (non_max_suppression [⟨0, 0, 9, 9⟩, ⟨100, 100, 109, 109⟩] NMS_OVERLAP_THRESH)
        NMS_OVERLAP_THRESH
      = [⟨0, 0, 9, 9⟩, ⟨100, 100, 109, 109⟩] ∧
    non_max_suppression
        (non_max_suppression [⟨0, 0, 9, 9⟩, ⟨100, 100, 109, 109⟩] NMS_OVERLAP_THRESH)
        NMS_OVERLAP_THRESH
      ≠ non_max_suppression [⟨0, 0, 9, 9⟩, ⟨100, 100, 109, 109⟩] NMS_OVERLAP_THRESH := by
  refine ⟨by decide, by decide, by decide⟩

/-- C9 (amended): on integer-coordinate inputs the second NMS pass
suppresses nothing — its output is a permutation of its input (only the
order of equal-area boxes can change, by the reverse-order tie-break). -/
theorem c9_nms_idempotent_perm (boxes : List Box) (τ : ℚ) (hint : ∀ b ∈ boxes, IntBox b) :
    (non_max_suppression (non_max_suppression boxes τ) τ).Perm
      (non_max_suppression boxes τ) := by
  have hO : non_max_suppression boxes τ = nmsPicks boxes τ := nms_eq_picks hint
  have hOint : ∀ b ∈ non_max_suppression boxes τ, IntBox b := by
    intro b hb
    exact hint b (nmsPicks_subset (hO ▸ hb))
  have hOkeep : (non_max_suppression boxes τ).Pairwise (fun a b => nmsKeep a b τ = true) := by
    rw [hO]
    exact nmsPicks_pairwise_keep boxes τ
  have hordkeep :
      (nmsOrder (non_max_suppression boxes τ)).Pairwise (fun a b => nmsKeep a b τ = true) := by
    refine (nmsOrder_perm _).symm.pairwise hOkeep ?_
    intro x y hxy
    rw [nmsKeep_comm]
    exact hxy
  have hsecond :
      nmsPicks (non_max_suppression boxes τ) τ = nmsOrder (non_max_suppression boxes τ) :=
    ng_eq_self hordkeep (le_refl _)
  rw [nms_eq_picks hOint, hsecond]
  exact nmsOrder_perm _

/-- C9 witness: the permutation property instantiated on a concrete
integer input. -/
theorem c9_nms_idempotent_perm_witness :
    (non_max_suppression
        (non_max_suppression [(⟨0, 0, 9, 9⟩ : Box), ⟨100, 100, 109, 109⟩] NMS_OVERLAP_THRESH)
        NMS_OVERLAP_THRESH).Perm
      (non_max_suppression [(⟨0, 0, 9, 9⟩ : Box), ⟨100, 100, 109, 109⟩] NMS_OVERLAP_THRESH) :=
  c9_nms_idempotent_perm [⟨0, 0, 9, 9⟩, ⟨100, 100, 109, 109⟩] NMS_OVERLAP_THRESH (by decide)

/-! ### Claim C10 -/

/-- C10: `non_max_suppression` computes on floats and casts the
surviving boxes back with truncation toward zero: every output box is
the truncation of some input box, the element-wise subset guarantee
holds whenever every input coordinate is an integer, and on the
fractional input `(-1.5, 0, 1.5, 2.5)` the returned box is the
toward-zero truncation `(-1, 0, 1, 2)`, which equals no input box. -/
theorem c10_truncation (boxes : List Box) (τ : ℚ) :
    (∀ b ∈ non_max_suppression boxes τ, b ∈ boxes.map truncBox) ∧
    ((∀ b ∈ boxes, IntBox b) → ∀ b ∈ non_max_suppression boxes τ, b ∈ boxes) ∧
    non_max_suppression [⟨-3 / 2, 0, 3 / 2, 5 / 2⟩] NMS_OVERLAP_THRESH = [⟨-1, 0, 1, 2⟩] ∧
    (⟨-1, 0, 1, 2⟩ : Box) ∉ [(⟨-3 / 2, 0, 3 / 2, 5 / 2⟩ : Box)] := by
  refine ⟨?_, ?_, by decide, by decide⟩
  · intro b hb
    rcases List.mem_map.mp hb with ⟨c, hc, hbc⟩
    exact List.mem_map.mpr ⟨c, nmsPicks_subset hc, hbc⟩
  · intro hint b hb
    rw [nms_eq_picks hint] at hb
    exact nmsPicks_subset hb

/-- C10 witness: the truncated output box of the fractional input is a
member of the truncated input list, and with integer inputs the output
box is a member of the input itself. -/
theorem c10_truncation_witness :
    (⟨-1, 0, 1, 2⟩ : Box) ∈ [(⟨-3 / 2, 0, 3 / 2, 5 / 2⟩ : Box)].map truncBox ∧
    (⟨0, 0, 9, 9⟩ : Box) ∈ [(⟨0, 0, 9, 9⟩ : Box)] :=
  ⟨(c10_truncation [⟨-3 / 2, 0, 3 / 2, 5 / 2⟩] NMS_OVERLAP_THRESH).1 ⟨-1, 0, 1, 2⟩ (by decide),
   (c10_truncation [⟨0, 0, 9, 9⟩] NMS_OVERLAP_THRESH).2.1 (by decide) ⟨0, 0, 9, 9⟩ (by decide)⟩

/-! ### Claim C5 -/

/-- C5: in any frame update from a well-formed tracker state, every
previous track that matched no candidate (its id is not in
`used_track_ids`) appears in the new table with its miss count
incremented by one and count and box unchanged exactly when the
incremented count stays within `MAX_MISSES`, and is absent otherwise;
moreover every track of the new table has `misses ≤ MAX_MISSES`. -/
theorem c5_eviction_exact (t : TrackTable) (n : Nat) (boxes : List Box) (h : StateOk t n) :
    (∀ tid tr, lookupT tid t = some tr → tid ∉ usedOf t n boxes →
        lookupT tid (updateFrame t n boxes).1 =
          (if tr.misses + 1 ≤ MAX_MISSES then some ⟨tr.count, tr.last_xyxy, tr.misses + 1⟩
           else none)) ∧
    ∀ p ∈ (updateFrame t n boxes).1, p.2.misses ≤ MAX_MISSES := by
  obtain ⟨hnd, hlt, _⟩ := h
  have hinv := foldInv_assocFold t n boxes
  constructor
  · intro tid tr hlk hused
    have htid0 : tid ∈ keysOf t := mem_keysOf_of_mem (lookupT_some_mem hlk)
    have hlk' : lookupT tid (assocFold t n boxes).tracked = some tr := by
      rw [hinv.unmatched tid hused]
      exact hlk
    have hmem' : (tid, tr) ∈ (assocFold t n boxes).tracked := lookupT_some_mem hlk'
    have hnd' : (keysOf (assocFold t n boxes).tracked).Nodup := by
      rw [hinv.tkeys]
      exact hnd
    have hnotnew : tid ∉ keysOf (assocFold t n boxes).new_tracked := by
      intro hmem
      rcases hinv.newKeys tid hmem with hmem | hmem
      · exact hused hmem
      · exact absurd (hlt tid htid0) (not_lt.mpr hmem.1)
    have hage : lookupT tid
        (((assocFold t n boxes).tracked).foldl (ageStep (assocFold t n boxes).used)
          (assocFold t n boxes).new_tracked)
        = (if tr.misses + 1 ≤ MAX_MISSES then some ⟨tr.count, tr.last_xyxy, tr.misses + 1⟩
           else lookupT tid (assocFold t n boxes).new_tracked) :=
      age_lookup_mem hnd' hmem' hused
    show lookupT tid
        (((assocFold t n boxes).tracked).foldl (ageStep (assocFold t n boxes).used)
          (assocFold t n boxes).new_tracked) = _
    rw [hage, lookupT_eq_none hnotnew]
  · intro p hp
    have hp' : p ∈ ((assocFold t n boxes).tracked).foldl (ageStep (assocFold t n boxes).used)
        (assocFold t n boxes).new_tracked := hp
    rcases mem_age hp' with hm | hm
    · rw [hinv.newMiss p hm]
      exact Nat.zero_le _
    · rcases hm with ⟨q, _, hq, hb⟩
      rw [hq]
      exact hb

/-- C5 witness (Scenario C): the stable track `(count 3, misses 0)` that
receives no candidate is carried with `misses = 1`; a second consecutive
miss evicts it. -/
theorem c5_eviction_exact_witness :
    lookupT 0 (updateFrame [(0, ⟨3, ⟨10, 10, 50, 50⟩, 0⟩)] 1 []).1
        = some ⟨3, ⟨10, 10, 50, 50⟩, 1⟩ ∧
    lookupT 0 (updateFrame [(0, ⟨3, ⟨10, 10, 50, 50⟩, 1⟩)] 1 []).1 = none := by
  constructor
  · have h := (c5_eviction_exact [(0, ⟨3, ⟨10, 10, 50, 50⟩, 0⟩)] 1 [] (by decide)).1 0
      ⟨3, ⟨10, 10, 50, 50⟩, 0⟩ (by decide) (by decide)
    simpa [MAX_MISSES] using h
  · have h := (c5_eviction_exact [(0, ⟨3, ⟨10, 10, 50, 50⟩, 1⟩)] 1 [] (by decide)).1 0
      ⟨3, ⟨10, 10, 50, 50⟩, 1⟩ (by decide) (by decide)
    simpa [MAX_MISSES] using h

/-! ### Claim C6 -/

/-- C6: per-candidate update semantics.  If the best-IoU track exceeds
`MATCH_THRESH = 0.3`, that track is updated with count incremented, the
candidate as its box and misses reset to 0, the id counter is unchanged
and other tracks are untouched; if the best IoU is at most 0.3, the
previous table is left unmodified and a brand-new track `(count 1,
misses 0, last box the candidate)` is stored under the next unused id,
which is then incremented. -/
theorem c6_candidate_update (s : AssocState) (box : Box) :
    (∀ tid q tr, bestMatch box s.tracked = (some tid, q) → MATCH_THRESH < q →
        lookupT tid s.tracked = some tr →
        (processCandidate s box).tracked = updAssoc tid ⟨tr.count + 1, box, 0⟩ s.tracked ∧
        (processCandidate s box).new_tracked
            = updAssoc tid ⟨tr.count + 1, box, 0⟩ s.new_tracked ∧
        (processCandidate s box).next_id = s.next_id ∧
        lookupT tid (processCandidate s box).tracked = some ⟨tr.count + 1, box, 0⟩ ∧
        ∀ k, k ≠ tid → lookupT k (processCandidate s box).tracked = lookupT k s.tracked) ∧
    ((bestMatch box s.tracked).2 ≤ MATCH_THRESH →
        (processCandidate s box).tracked = s.tracked ∧
        (processCandidate s box).new_tracked = updAssoc s.next_id ⟨1, box, 0⟩ s.new_tracked ∧
        lookupT s.next_id (processCandidate s box).new_tracked = some ⟨1, box, 0⟩ ∧
        (processCandidate s box).next_id = s.next_id + 1) := by
  constructor
  · intro tid q tr hbm hq hlk
    have h1 : (bestMatch box s.tracked).1 = some tid := by rw [hbm]
    have hcond : MATCH_THRESH < (bestMatch box s.tracked).2 := by
      rw [hbm]
      exact hq
    have heq : processCandidate s box =
        ⟨updAssoc tid ⟨tr.count + 1, box, 0⟩ s.tracked,
         updAssoc tid ⟨tr.count + 1, box, 0⟩ s.new_tracked, tid :: s.used, s.next_id⟩ := by
      unfold processCandidate
      rw [if_pos hcond, h1]
      dsimp only
      rw [hlk]
      rfl
    refine ⟨by rw [heq], by rw [heq], by rw [heq], ?_, ?_⟩
    · rw [heq]
      exact lookupT_updAssoc_self tid _ s.tracked
    · intro k hk
      rw [heq]
      exact lookupT_updAssoc_ne hk _ s.tracked
  · intro hle
    have heq : processCandidate s box = newTrackState s box := by
      unfold processCandidate
      rw [if_neg (not_lt.mpr hle)]
    refine ⟨by rw [heq]; rfl, by rw [heq]; rfl, ?_, by rw [heq]; rfl⟩
    rw [heq]
    exact lookupT_updAssoc_self s.next_id _ s.new_tracked

/-- C6 witness (Scenario D): a candidate with IoU 1/4 ≤ 0.3 against the
only track leaves it unmodified and creates a fresh track under id 1;
and a perfectly overlapping candidate (IoU 1) updates the matched track
to `(count 2, misses 0)`. -/
theorem c6_candidate_update_witness :
    (processCandidate ⟨[(0, ⟨1, ⟨0, 0, 9, 9⟩, 0⟩)], [], [], 1⟩ ⟨0, 0, 4, 4⟩).tracked
        = [(0, ⟨1, ⟨0, 0, 9, 9⟩, 0⟩)] ∧
    (processCandidate ⟨[(0, ⟨1, ⟨0, 0, 9, 9⟩, 0⟩)], [], [], 1⟩ ⟨0, 0, 4, 4⟩).next_id = 2 ∧
    lookupT 0 (processCandidate ⟨[(0, ⟨1, ⟨0, 0, 9, 9⟩, 0⟩)], [], [], 1⟩ ⟨0, 0, 9, 9⟩).tracked
        = some ⟨2, ⟨0, 0, 9, 9⟩, 0⟩ :=
  ⟨((c6_candidate_update ⟨[(0, ⟨1, ⟨0, 0, 9, 9⟩, 0⟩)], [], [], 1⟩ ⟨0, 0, 4, 4⟩).2
      (by decide)).1,
   ((c6_candidate_update ⟨[(0, ⟨1, ⟨0, 0, 9, 9⟩, 0⟩)], [], [], 1⟩ ⟨0, 0, 4, 4⟩).2
      (by decide)).2.2.2,
   ((c6_candidate_update ⟨[(0, ⟨1, ⟨0, 0, 9, 9⟩, 0⟩)], [], [], 1⟩ ⟨0, 0, 9, 9⟩).1 0 1
      ⟨1, ⟨0, 0, 9, 9⟩, 0⟩ (by decide) (by decide) (by decide)).2.2.2.1⟩

/-! ### Claim C7 -/

/-- C7: a track is reported stable iff its count reaches
`STABLE_FRAMES_REQUIRED = 3`; the stable-track query is a pure filter of
the table (a sublist, with membership exactly the stable entries); and
one candidate box `(10,10,50,50)` repeated for 3 consecutive frames from
the empty table (it passes NMS unchanged each frame) yields exactly one
track, with count 3, which the query reports. -/
theorem c7_stability (tr : Track) (tbl : TrackTable) :
    (isStable tr = true ↔ STABLE_FRAMES_REQUIRED ≤ tr.count) ∧
    STABLE_FRAMES_REQUIRED = 3 ∧
    (stableTracks tbl).Sublist tbl ∧
    (∀ p : Nat × Track, p ∈ stableTracks tbl ↔ p ∈ tbl ∧ isStable p.2 = true) ∧
    non_max_suppression [⟨10, 10, 50, 50⟩] NMS_OVERLAP_THRESH = [⟨10, 10, 50, 50⟩] ∧
    sessionRun [[⟨10, 10, 50, 50⟩], [⟨10, 10, 50, 50⟩], [⟨10, 10, 50, 50⟩]]
        = ([(0, ⟨3, ⟨10, 10, 50, 50⟩, 0⟩)], 1) ∧
    stableTracks [(0, ⟨3, ⟨10, 10, 50, 50⟩, 0⟩)] = [(0, ⟨3, ⟨10, 10, 50, 50⟩, 0⟩)] := by
  refine ⟨?_, rfl, List.filter_sublist tbl, fun p => List.mem_filter, by decide, by decide,
    by decide⟩
  simp [isStable]

/-! ### Claim C8 -/

/-- C8: in every session (any sequence of frames starting from the empty
table and id counter 0) no two tracks simultaneously present share an
id; an id absent from the table while below the counter — in particular
any evicted id — never reappears under any continuation of the session;
and a frame that leaves the table empty leaves the id counter untouched. -/
theorem c8_track_id_uniqueness (frames : List (List Box)) :
    (keysOf (sessionRun frames).1).Nodup ∧
    (∀ (more : List (List Box)) (k : Nat), k < (sessionRun frames).2 →
        k ∉ keysOf (sessionRun frames).1 →
        k ∉ keysOf (more.foldl step (sessionRun frames)).1) ∧
    (∀ boxes : List Box, (step (sessionRun frames) boxes).1 = [] →
        (step (sessionRun frames) boxes).2 = (sessionRun frames).2) := by
  refine ⟨(sessionRun_stateOk frames).1, ?_, ?_⟩
  · intro more k hk habs
    exact foldl_step_absent more (sessionRun frames) (sessionRun_stateOk frames) hk habs
  · intro boxes hempty
    exact updateFrame_empty_next hempty

/-- C8 witness: after a session in which track 0 is created and then
evicted (table empty, counter still 1), id 0 does not reappear when a
further frame creates a new track (it gets id 1), and a frame with no
candidates leaves the counter at 1. -/
theorem c8_track_id_uniqueness_witness :
    0 ∉ keysOf (List.foldl step (sessionRun [[⟨0, 0, 9, 9⟩], [], []]) [[⟨0, 0, 9, 9⟩]]).1 ∧
    (step (sessionRun [[⟨0, 0, 9, 9⟩], [], []]) []).2 = (sessionRun [[⟨0, 0, 9, 9⟩], [], []]).2 :=
  ⟨(c8_track_id_uniqueness [[⟨0, 0, 9, 9⟩], [], []]).2.1 [[⟨0, 0, 9, 9⟩]] 0 (by decide)
      (by decide),
   (c8_track_id_uniqueness [[⟨0, 0, 9, 9⟩], [], []]).2.2 [] (by decide)⟩

end FaceTrack
